import Mathlib

/-!
Verification of the Horn-clause logic engine of `src/logic_engine.py`
(parser, unification, depth-bounded backtracking SLD resolution with trace).

Shallow embedding conventions:
* Python `str` terms become Lean `String`; a Python `dict` substitution
  becomes an association list whose `slookup` returns the first (most
  recently inserted) binding, which matches dict lookup because the engine
  only ever inserts keys that are unbound at insertion time.
* The `while` loop of `apply_subst_term` is embedded with fuel equal to the
  number of bindings: on every substitution the engine can build (distinct
  keys, no binding cycles) the chain visits each key at most once, so this
  fuel reaches exactly the fixed point the Python loop reaches.
* The recursive `dfs` of `prove` is embedded with a fuel argument that is a
  pure termination artifact: `prove` passes `max_depth + 2`, which is never
  exhausted because every recursive call increments `depth` and the source
  returns as soon as `depth > max_depth`.
* Numeric depths are `Nat` (the engine only ever passes 0 and successors);
  the parenthesis depth inside `_split_body` is `Int`, as in Python it can
  go negative on unbalanced input.
-/

/-- Python `Term = str`: variables start with an uppercase letter or `_`. -/
abbrev Term := String

/-- Python `Subst = Dict[str, Term]`, embedded as an association list. -/
abbrev Subst := List (String × Term)

/-- `Atom` dataclass: predicate name and argument terms. -/
structure Atom where
  pred : String
  args : List Term
deriving DecidableEq

/-- `Rule` dataclass: head atom and (possibly empty) body. -/
structure Rule where
  head : Atom
  body : List Atom
deriving DecidableEq

/-- `is_var(t)`: nonempty and first character uppercase or underscore. -/
def is_var (t : Term) : Bool :=
  match t.data with
  | [] => false
  | c :: _ => c.isUpper || c = '_'

/-- Dict lookup `s[t]` / membership `t in s` (first binding wins). -/
def slookup : Subst → String → Option Term
  | [], _ => none
  | (k, v) :: rest, x => if x = k then some v else slookup rest x

/-- The chain-following loop of `apply_subst_term`, with explicit fuel:
`while is_var(t) and t in s and s[t] != t: t = s[t]`. -/
def resolveT (s : Subst) : Nat → Term → Term
  | 0, t => t
  | n + 1, t =>
    if is_var t then
      match slookup s t with
      | some v => if v = t then t else resolveT s n v
      | none => t
    else t

/-- `apply_subst_term(t, s)`: follow binding chains to a fixed point.  Fuel
`s.length` suffices on every acyclic substitution with distinct keys, i.e.
on every substitution the engine builds. -/
def apply_subst_term (t : Term) (s : Subst) : Term :=
  resolveT s s.length t

/-- `apply_subst_atom(a, s)`: resolve every argument. -/
def apply_subst_atom (a : Atom) (s : Subst) : Atom :=
  Atom.mk a.pred (a.args.map (fun x => apply_subst_term x s))

/-- `unify_terms(t1, t2, s)`: resolve both, succeed on equality, bind a
resolved variable, fail on distinct constants.  The Python function copies
the dict before binding, so the input substitution is never mutated; the
pure embedding reflects that automatically. -/
def unify_terms (t1 t2 : Term) (s : Subst) : Option Subst :=
  let r1 := apply_subst_term t1 s
  let r2 := apply_subst_term t2 s
  if r1 = r2 then some s
  else if is_var r1 then some ((r1, r2) :: s)
  else if is_var r2 then some ((r2, r1) :: s)
  else none

/-- The argument-pair loop of `unify_atoms`, threading the substitution and
failing as soon as one pair fails. -/
def unifyArgs : List Term → List Term → Subst → Option Subst
  | [], [], s => some s
  | x :: xs, y :: ys, s =>
    match unify_terms x y s with
    | none => none
    | some s2 => unifyArgs xs ys s2
  | _, _, _ => none

/-- `unify_atoms(a1, a2, s)`: same predicate and arity, then pairwise
argument unification. -/
def unify_atoms (a1 a2 : Atom) (s : Subst) : Option Subst :=
  if a1.pred = a2.pred ∧ a1.args.length = a2.args.length then
    unifyArgs a1.args a2.args s
  else none

/-- `", ".join(...)`, used by `Atom.__str__` and the trace lines. -/
def joinComma : List String → String
  | [] => ""
  | [a] => a
  | a :: rest => a ++ ", " ++ joinComma rest

/-- `Atom.__str__`: bare predicate for zero arity, else `pred(a, b)`. -/
def atomStr (a : Atom) : String :=
  if a.args = [] then a.pred else a.pred ++ "(" ++ joinComma a.args ++ ")"

/-- The single-quote character Python `repr` puts around each string when a
list of strings is formatted into the depth-limit trace line. -/
def pyQuote : String :=
  String.singleton (Char.ofNat 39)

/-- `f"Depth limit reached at goals: {[str(apply_subst_atom(g, s)) for g in goals]}"`. -/
def depthLimitLine (goals : List Atom) (s : Subst) : String :=
  "Depth limit reached at goals: [" ++
    joinComma (goals.map (fun g => pyQuote ++ atomStr (apply_subst_atom g s) ++ pyQuote)) ++
    "]"

/-- Python `str.strip()` on a character list. -/
def stripChars (cs : List Char) : List Char :=
  ((cs.dropWhile Char.isWhitespace).reverse.dropWhile Char.isWhitespace).reverse

/-- Python `str.rstrip(".")` on a character list. -/
def rstripDots (cs : List Char) : List Char :=
  (cs.reverse.dropWhile (· = '.')).reverse

/-- Python `str.split(sep)` for a one-character separator (`"".split` gives
one empty piece, exactly like the `[[]]` base case). -/
def splitOnChar (c : Char) : List Char → List (List Char)
  | [] => [[]]
  | x :: xs =>
    let r := splitOnChar c xs
    if x = c then [] :: r
    else
      match r with
      | [] => [[x]]
      | y :: ys => (x :: y) :: ys

/-- `_split_args(arg_str)`: split on commas, strip, drop empties. -/
def _split_args (arg_str : String) : List String :=
  (((arg_str.data.splitOn ',').map stripChars).filter (· ≠ [])).map String.mk

/-- `_parse_atom(text)`: strip, drop trailing dots; without `(` a zero-arity
atom; otherwise predicate is the text before the first `(` and the argument
text is everything up to the last `)` (or to the end when `)` is missing,
Python `rest.rsplit(")", 1)[0]` on a separator-free string). -/
def _parse_atom (text : String) : Atom :=
  let t := rstripDots (stripChars text.data)
  if t.contains '(' then
    let pred := t.takeWhile (· ≠ '(')
    let rest := (t.dropWhile (· ≠ '(')).drop 1
    let args :=
      if rest.contains ')' then ((rest.reverse.dropWhile (· ≠ ')')).drop 1).reverse
      else rest
    Atom.mk (String.mk (stripChars pred)) (_split_args (String.mk args))
  else Atom.mk (String.mk t) []

/-- The character loop of `_split_body`: parenthesis-depth tracking scan
that splits only at top-level commas; each finished piece is stripped as it
is appended, and the depth is an integer that may go negative. -/
def _split_body_go : List Char → List (List Char) → List Char → Int →
    List (List Char) × List Char
  | [], parts, cur, _ => (parts, cur)
  | ch :: restCs, parts, cur, depth =>
    let depth2 : Int :=
      if ch = '(' then depth + 1 else if ch = ')' then depth - 1 else depth
    if ch = ',' ∧ depth2 = 0 then
      _split_body_go restCs (parts ++ [stripChars cur]) [] depth2
    else
      _split_body_go restCs parts (cur ++ [ch]) depth2

/-- `_split_body(body)`: run the scan, then append the stripped remainder
when nonempty. -/
def _split_body (body : String) : List String :=
  let pc := _split_body_go body.data [] [] 0
  let last := stripChars pc.2
  ((if last ≠ [] then pc.1 ++ [last] else pc.1)).map String.mk

/-- Python `sep in line` / `line.split(":-", 1)`: split a character list at
the first occurrence of `sep`, `none` when `sep` does not occur. -/
def splitOnFirst (sep : List Char) : List Char → Option (List Char × List Char)
  | [] => none
  | x :: xs =>
    if sep.isPrefixOf (x :: xs) then some ([], (x :: xs).drop sep.length)
    else
      match splitOnFirst sep xs with
      | some pq => some (x :: pq.1, pq.2)
      | none => none

/-- One iteration of the `parse_program` line loop: `none` for skipped
lines (blank after stripping, or starting with `%`), a rule when the line
contains `:-`, otherwise a fact. -/
def parseLine (lineCs : List Char) : Option Rule :=
  let line := stripChars lineCs
  if line = [] then none
  else if line.head? = some '%' then none
  else
    match splitOnFirst [':', '-'] line with
    | some ht =>
      let head := _parse_atom (String.mk (stripChars ht.1))
      let body_atoms := (_split_body (String.mk (rstripDots (stripChars ht.2)))).map _parse_atom
      some (Rule.mk head body_atoms)
    | none => some (Rule.mk (_parse_atom (String.mk line)) [])

/-- `parse_program(program_text)`: split into lines and parse each.  (The
embedding splits on `'\n'`; Python `splitlines` differs only by a trailing
empty piece after a final newline, which the blank-line skip discards.) -/
def parse_program (program_text : String) : List Rule :=
  (splitOnChar '\n' program_text.data).filterMap parseLine

/-- `res, tr = <recursive attempt>; if res is not None: return res, tr`
followed by falling through to the next candidate clause: propagate a
successful attempt (with its trace) unchanged, otherwise run the fallback,
discarding the failed attempt's trace and substitution. -/
def firstSuccess (attempt : Option Subst × List String)
    (fallback : Unit → Option Subst × List String) : Option Subst × List String :=
  match attempt with
  | (some res, tr) => (some res, tr)
  | (none, _) => fallback ()

/-- The clause loop inside `dfs`: try each rule in program order against
the resolved goal; on a match, recurse through `next` (the continuation
that re-enters `dfs` at `depth + 1`); propagate the first success, discard
a failed attempt's trace and substitution and move to the next clause; when
the clauses are exhausted append the `Goal:`/`  Fail:` lines. -/
def tryRules (next : List Atom → Subst → List String → Option Subst × List String)
    (goal : Atom) (rest : List Atom) (s : Subst) (trace : List String) :
    List Rule → Option Subst × List String
  | [] => (none, trace ++ ["Goal: " ++ atomStr goal, "  Fail: " ++ atomStr goal])
  | r :: rs =>
    match unify_atoms r.head goal s with
    | none => tryRules next goal rest s trace rs
    | some s2 =>
      let head_s := apply_subst_atom r.head s2
      match r.body with
      | [] =>
        firstSuccess
          (next rest s2
            (trace ++ ["Goal: " ++ atomStr goal, "  Matched FACT: " ++ atomStr head_s]))
          (fun _ => tryRules next goal rest s trace rs)
      | _ :: _ =>
        let body_s := r.body.map (fun a => apply_subst_atom a s2)
        firstSuccess
          (next (r.body ++ rest) s2
            (trace ++ ["Goal: " ++ atomStr goal,
              "  Matched RULE: " ++ atomStr head_s ++ " :- " ++
                joinComma (body_s.map atomStr)]))
          (fun _ => tryRules next goal rest s trace rs)

/-- `dfs(goals, s, depth, trace)` from `prove`: depth check first (the
branch is abandoned with a depth-limit trace line as soon as
`depth > max_depth`), then empty-goals success, then the clause loop on the
head goal resolved under the current substitution.  The first argument is
the termination fuel described in the header; it is never exhausted on the
calls `prove` makes. -/
def dfs (program : List Rule) (max_depth : Nat) :
    Nat → List Atom → Subst → Nat → List String → Option Subst × List String
  | 0, _, _, _, trace => (none, trace)
  | fuel + 1, goals, s, depth, trace =>
    if max_depth < depth then
      (none, trace ++ [depthLimitLine goals s])
    else
      match goals with
      | [] => (some s, trace)
      | g :: rest =>
        tryRules (fun goals2 s2 tr2 => dfs program max_depth fuel goals2 s2 (depth + 1) tr2)
          (apply_subst_atom g s) rest s trace program

/-- `prove(program, query, max_depth)`: run `dfs([query], {}, 0, [])` and
return whether a substitution was found together with the trace. -/
def prove (program : List Rule) (query : Atom) (max_depth : Nat) :
    Bool × List String :=
  let rt := dfs program max_depth (max_depth + 2) [query] [] 0 []
  (rt.1.isSome, rt.2)

/-- The three-clause family example program, exactly as its program text
parses. -/
def demoText : String :=
  "parent(john, mary).\nparent(mary, emma).\ngrandparent(X, Z) :- parent(X, Y), parent(Y, Z)."

/-- The parsed demo program. -/
def demoProgram : List Rule :=
  parse_program demoText

/-- The head/body atom `p(X)` of the self-referential rule. -/
def selfAtomX : Atom := Atom.mk "p" ["X"]

/-- The directly self-referential rule `p(X) :- p(X).`. -/
def selfRule : Rule := Rule.mk selfAtomX [selfAtomX]

/-- A program holding only the self-referential rule and no fact. -/
def selfProgram : List Rule := [selfRule]

/-- The ground query `p(c)` posed against `selfProgram`. -/
def selfQuery : Atom := Atom.mk "p" ["c"]

/-- The substitution the engine reaches after unifying `p(X)` with `p(c)`. -/
def substXc : Subst := [("X", "c")]

/-- Ground atom: every argument is a constant (the fact-proof claim's
"zero-arity or with all-constant arguments"). -/
def isGround (a : Atom) : Bool :=
  a.args.all (fun t => !(is_var t))

/-- A term is terminal for a substitution when resolving it is a no-op:
if it is a variable, it is unbound.  Constants are always terminal. -/
def IsTerminal (s : Subst) (u : Term) : Prop :=
  is_var u = true → slookup s u = none

/-- Well-formed substitution: chain-following reaches a terminal term.
This holds for every substitution the engine builds (the Python loop would
fail to terminate otherwise) and is exactly what the fuel argument of
`resolveT` realises. -/
def Wf (s : Subst) : Prop :=
  ∀ t, IsTerminal s (apply_subst_term t s)

theorem resolveT_stable (s : Subst) (u : Term) (h : IsTerminal s u) :
    ∀ n, resolveT s n u = u
  | 0 => rfl
  | n + 1 => by
    by_cases hv : is_var u = true
    · simp [resolveT, hv, h hv]
    · simp [resolveT, hv]

theorem slookup_cons (x y : Term) (s : Subst) (k : String) :
    slookup ((x, y) :: s) k = if k = x then some y else slookup s k := rfl

theorem resolveT_extend (s : Subst) (x y : Term)
    (hx : slookup s x = none) (hxv : is_var x = true)
    (hy : IsTerminal s y) (hyx : y ≠ x) :
    ∀ n t, IsTerminal s (resolveT s n t) →
      resolveT ((x, y) :: s) (n + 1) t =
        if resolveT s n t = x then y else resolveT s n t := by
  have hy' : IsTerminal ((x, y) :: s) y := by
    intro hvy
    rw [slookup_cons, if_neg hyx]
    exact hy hvy
  intro n
  induction n with
  | zero =>
    intro t ht
    by_cases htx : t = x
    · subst htx
      simp [resolveT, hxv, slookup_cons, hyx]
    · by_cases hv : is_var t = true
      · have : slookup s t = none := ht hv
        simp [resolveT, hv, slookup_cons, htx, this]
      · simp [resolveT, hv, htx]
  | succ n ih =>
    intro t ht
    by_cases htx : t = x
    · have hres : resolveT s (n + 1) t = t := by
        rw [htx]; simp [resolveT, hxv, hx]
      rw [hres, if_pos htx]
      have step : resolveT ((x, y) :: s) (n + 1 + 1) t =
          resolveT ((x, y) :: s) (n + 1) y := by
        rw [htx]; simp [resolveT, hxv, slookup_cons, hyx]
      rw [step, resolveT_stable _ _ hy']
    · by_cases hv : is_var t = true
      · cases hl : slookup s t with
        | none =>
          have hres : resolveT s (n + 1) t = t := by simp [resolveT, hv, hl]
          rw [hres, if_neg htx]
          simp [resolveT, hv, slookup_cons, htx, hl]
        | some w =>
          by_cases hw : w = t
          · rw [hw] at hl
            have hres : resolveT s (n + 1) t = t := by simp [resolveT, hv, hl]
            rw [hres] at ht
            exact absurd (ht hv) (by simp [hl])
          · have hres : resolveT s (n + 1) t = resolveT s n w := by
              simp [resolveT, hv, hl, hw]
            rw [hres] at ht ⊢
            have lhs : resolveT ((x, y) :: s) (n + 1 + 1) t =
                resolveT ((x, y) :: s) (n + 1) w := by
              simp [resolveT, hv, slookup_cons, htx, hl, hw]
            rw [lhs]
            exact ih w ht
      · have hres : resolveT s (n + 1) t = t := by simp [resolveT, hv]
        rw [hres, if_neg htx]
        simp [resolveT, hv]

theorem apply_subst_term_extend (s : Subst) (x y : Term)
    (hwf : Wf s) (hx : slookup s x = none) (hxv : is_var x = true)
    (hy : IsTerminal s y) (hyx : y ≠ x) (t : Term) :
    apply_subst_term t ((x, y) :: s) =
      if apply_subst_term t s = x then y else apply_subst_term t s := by
  have h := resolveT_extend s x y hx hxv hy hyx s.length t (hwf t)
  simpa [apply_subst_term, List.length_cons] using h

theorem wf_extend (s : Subst) (x y : Term) (hwf : Wf s)
    (hx : slookup s x = none) (hxv : is_var x = true)
    (hy : IsTerminal s y) (hyx : y ≠ x) : Wf ((x, y) :: s) := by
  intro t
  rw [apply_subst_term_extend s x y hwf hx hxv hy hyx t]
  by_cases h : apply_subst_term t s = x
  · rw [if_pos h]
    intro hvy
    rw [slookup_cons, if_neg hyx]
    exact hy hvy
  · rw [if_neg h]
    intro hvv
    rw [slookup_cons, if_neg h]
    exact hwf t hvv

theorem unify_terms_wf_extends (t1 t2 : Term) (s s' : Subst) (hwf : Wf s)
    (h : unify_terms t1 t2 s = some s') :
    (∀ k v, slookup s k = some v → slookup s' k = some v) ∧ Wf s' := by
  by_cases h12 : apply_subst_term t1 s = apply_subst_term t2 s
  · have h' : unify_terms t1 t2 s = some s := by simp [unify_terms, h12]
    rw [h'] at h
    obtain rfl : s = s' := by injection h
    exact ⟨fun k v hv => hv, hwf⟩
  · by_cases hv1 : is_var (apply_subst_term t1 s) = true
    · have h' : unify_terms t1 t2 s =
          some ((apply_subst_term t1 s, apply_subst_term t2 s) :: s) := by
        simp [unify_terms, h12, hv1]
      rw [h'] at h
      obtain rfl : (apply_subst_term t1 s, apply_subst_term t2 s) :: s = s' := by
        injection h
      have hx : slookup s (apply_subst_term t1 s) = none := hwf t1 hv1
      have hyx : apply_subst_term t2 s ≠ apply_subst_term t1 s := fun hc => h12 hc.symm
      refine ⟨fun k v hv => ?_, wf_extend s _ _ hwf hx hv1 (hwf t2) hyx⟩
      rw [slookup_cons]
      by_cases hk : k = apply_subst_term t1 s
      · rw [hk] at hv
        rw [hv] at hx
        exact absurd hx (by simp)
      · rw [if_neg hk]; exact hv
    · by_cases hv2 : is_var (apply_subst_term t2 s) = true
      · have h' : unify_terms t1 t2 s =
            some ((apply_subst_term t2 s, apply_subst_term t1 s) :: s) := by
          simp [unify_terms, h12, hv1, hv2]
        rw [h'] at h
        obtain rfl : (apply_subst_term t2 s, apply_subst_term t1 s) :: s = s' := by
          injection h
        have hx : slookup s (apply_subst_term t2 s) = none := hwf t2 hv2
        refine ⟨fun k v hv => ?_, wf_extend s _ _ hwf hx hv2 (hwf t1) h12⟩
        rw [slookup_cons]
        by_cases hk : k = apply_subst_term t2 s
        · rw [hk] at hv
          rw [hv] at hx
          exact absurd hx (by simp)
        · rw [if_neg hk]; exact hv
      · have h' : unify_terms t1 t2 s = none := by
          simp [unify_terms, h12, hv1, hv2]
        rw [h'] at h
        exact absurd h (by simp)

theorem unifyArgs_wf_extends :
    ∀ (xs ys : List Term) (s s' : Subst), Wf s →
      unifyArgs xs ys s = some s' →
      (∀ k v, slookup s k = some v → slookup s' k = some v) ∧ Wf s'
  | [], [], s, s', hwf, h => by
    simp only [unifyArgs, Option.some.injEq] at h
    subst h
    exact ⟨fun k v hv => hv, hwf⟩
  | [], _ :: _, s, s', hwf, h => by simp [unifyArgs] at h
  | _ :: _, [], s, s', hwf, h => by simp [unifyArgs] at h
  | x :: xs, y :: ys, s, s', hwf, h => by
    rw [unifyArgs] at h
    cases hu : unify_terms x y s with
    | none => rw [hu] at h; exact absurd h (by simp)
    | some s2 =>
      rw [hu] at h
      have h1 := unify_terms_wf_extends x y s s2 hwf hu
      have h2 := unifyArgs_wf_extends xs ys s2 s' h1.2 h
      exact ⟨fun k v hv => h2.1 k v (h1.1 k v hv), h2.2⟩

theorem unify_atoms_wf_extends (a1 a2 : Atom) (s s' : Subst) (hwf : Wf s)
    (h : unify_atoms a1 a2 s = some s') :
    (∀ k v, slookup s k = some v → slookup s' k = some v) ∧ Wf s' := by
  rw [unify_atoms] at h
  by_cases hc : a1.pred = a2.pred ∧ a1.args.length = a2.args.length
  · rw [if_pos hc] at h
    exact unifyArgs_wf_extends a1.args a2.args s s' hwf h
  · rw [if_neg hc] at h
    exact absurd h (by simp)

theorem unify_terms_refl (t : Term) (s : Subst) : unify_terms t t s = some s := by
  simp [unify_terms]

theorem unifyArgs_refl : ∀ (l : List Term) (s : Subst), unifyArgs l l s = some s
  | [], s => rfl
  | x :: xs, s => by
    rw [unifyArgs, unify_terms_refl]
    exact unifyArgs_refl xs s

theorem unify_atoms_refl (a : Atom) (s : Subst) : unify_atoms a a s = some s := by
  rw [unify_atoms, if_pos ⟨rfl, rfl⟩]
  exact unifyArgs_refl a.args s

theorem firstSuccess_of_none (p : Option Subst × List String)
    (fb : Unit → Option Subst × List String) (h : p.1 = none) :
    firstSuccess p fb = fb () := by
  rcases p with ⟨o, tr⟩
  cases o with
  | none => rfl
  | some res => exact absurd h (by simp)

theorem firstSuccess_of_some (p : Option Subst × List String)
    (fb : Unit → Option Subst × List String) (res : Subst) (tr : List String)
    (h : p = (some res, tr)) : firstSuccess p fb = (some res, tr) := by
  rw [h]; rfl

theorem firstSuccess_isSome (p : Option Subst × List String)
    (fb : Unit → Option Subst × List String) :
    (firstSuccess p fb).1.isSome = (p.1.isSome || (fb ()).1.isSome) := by
  rcases p with ⟨o, tr⟩
  cases o <;> simp [firstSuccess]

theorem apply_subst_term_nil (t : Term) : apply_subst_term t [] = t := rfl

theorem apply_subst_atom_nil (a : Atom) : apply_subst_atom a [] = a := by
  cases a with
  | mk p args => simp [apply_subst_atom, apply_subst_term_nil]

theorem tryRules_congr
    (next1 next2 : List Atom → Subst → List String → Option Subst × List String)
    (hn : ∀ g s2 tr2, next1 g s2 tr2 = next2 g s2 tr2)
    (goal : Atom) (rest : List Atom) (s : Subst) (trace : List String) :
    ∀ rules, tryRules next1 goal rest s trace rules = tryRules next2 goal rest s trace rules
  | [] => rfl
  | r :: rs => by
    have ih := tryRules_congr next1 next2 hn goal rest s trace rs
    simp only [tryRules, hn, ih]

theorem tryRules_skip_all
    (next : List Atom → Subst → List String → Option Subst × List String)
    (goal : Atom) (rest : List Atom) (s : Subst) (trace : List String) :
    ∀ (pre rules : List Rule), (∀ r ∈ pre, unify_atoms r.head goal s = none) →
      tryRules next goal rest s trace (pre ++ rules) = tryRules next goal rest s trace rules
  | [], _, _ => rfl
  | r :: pre, rules, h => by
    have hr : unify_atoms r.head goal s = none := h r (List.mem_cons_self r pre)
    rw [List.cons_append]
    simp only [tryRules, hr]
    exact tryRules_skip_all next goal rest s trace pre rules
      (fun r' hr' => h r' (List.mem_cons_of_mem r hr'))

theorem tryRules_fact_isSome
    (next : List Atom → Subst → List String → Option Subst × List String)
    (goal : Atom) (rest : List Atom) (s : Subst) (trace : List String)
    (hnext : ∀ tr2, (next rest s tr2).1.isSome = true) :
    ∀ rules, Rule.mk goal [] ∈ rules →
      (tryRules next goal rest s trace rules).1.isSome = true
  | [], hmem => absurd hmem (List.not_mem_nil _)
  | r :: rs, hmem => by
    rcases List.mem_cons.mp hmem with heq | hmem'
    · rw [← heq]
      simp only [tryRules, unify_atoms_refl, firstSuccess_isSome, hnext]
      simp
    · simp only [tryRules]
      cases hu : unify_atoms r.head goal s with
      | none => exact tryRules_fact_isSome next goal rest s trace hnext rs hmem'
      | some s2 =>
        cases hb : r.body with
        | nil =>
          rw [firstSuccess_isSome,
            tryRules_fact_isSome next goal rest s trace hnext rs hmem']
          simp
        | cons b bs =>
          rw [firstSuccess_isSome,
            tryRules_fact_isSome next goal rest s trace hnext rs hmem']
          simp

theorem dfs_self_fails (md : Nat) :
    ∀ (fuel depth : Nat) (tr : List String), depth ≤ md + 1 → md + 2 ≤ depth + fuel →
      dfs selfProgram md fuel [selfAtomX] substXc depth tr =
        (none, tr ++ (if md < depth then [depthLimitLine [selfAtomX] substXc]
                      else ["Goal: p(c)", "  Fail: p(c)"]))
  | 0, depth, tr, h1, h2 => absurd h2 (by omega)
  | fuel + 1, depth, tr, h1, h2 => by
    by_cases hd : md < depth
    · rw [if_pos hd]
      simp only [dfs, if_pos hd]
    · rw [if_neg hd]
      have hstep : dfs selfProgram md (fuel + 1) [selfAtomX] substXc depth tr =
          tryRules (fun g s2 t2 => dfs selfProgram md fuel g s2 (depth + 1) t2)
            (Atom.mk "p" ["c"]) [] substXc tr selfProgram := by
        simp only [dfs, if_neg hd]
        rfl
      rw [hstep]
      have hloop : tryRules (fun g s2 t2 => dfs selfProgram md fuel g s2 (depth + 1) t2)
          (Atom.mk "p" ["c"]) [] substXc tr selfProgram =
          firstSuccess
            (dfs selfProgram md fuel [selfAtomX] substXc (depth + 1)
              (tr ++ ["Goal: p(c)", "  Matched RULE: p(c) :- p(c)"]))
            (fun _ => (none, tr ++ ["Goal: p(c)", "  Fail: p(c)"])) := rfl
      rw [hloop]
      have hin := dfs_self_fails md fuel (depth + 1)
        (tr ++ ["Goal: p(c)", "  Matched RULE: p(c) :- p(c)"]) (by omega) (by omega)
      rw [firstSuccess_of_none _ _ (by rw [hin])]

theorem dfs_fuel_irrelevant (program : List Rule) (md : Nat) :
    ∀ (n m depth : Nat) (goals : List Atom) (s : Subst) (tr : List String),
      depth ≤ md + 1 → md + 2 ≤ depth + n → md + 2 ≤ depth + m →
      dfs program md n goals s depth tr = dfs program md m goals s depth tr
  | 0, _, depth, _, _, _, h1, h2, _ => absurd h2 (by omega)
  | _ + 1, 0, depth, _, _, _, h1, _, h3 => absurd h3 (by omega)
  | n + 1, m + 1, depth, goals, s, tr, h1, h2, h3 => by
    by_cases hd : md < depth
    · simp only [dfs, if_pos hd]
    · simp only [dfs, if_neg hd]
      cases goals with
      | nil => rfl
      | cons g rest =>
        exact tryRules_congr _ _
          (fun g2 s2 t2 => dfs_fuel_irrelevant program md n m (depth + 1) g2 s2 t2
            (by omega) (by omega) (by omega))
          (apply_subst_atom g s) rest s tr program

/-- C1: on the program `parent(john, mary). / parent(mary, emma). /
grandparent(X, Z) :- parent(X, Y), parent(Y, Z).` the query
`grandparent(john, emma)` is proved, and the trace contains, in order, the
top goal line, the grandparent rule match, the successful match of
`parent(john, Y)` against the fact `parent(john, mary)` (binding `Y` to
`mary`), and the successful match of the fact `parent(mary, emma)`. -/
theorem c1_end_to_end_example :
    parse_program demoText =
      [Rule.mk (Atom.mk "parent" ["john", "mary"]) [],
       Rule.mk (Atom.mk "parent" ["mary", "emma"]) [],
       Rule.mk (Atom.mk "grandparent" ["X", "Z"])
         [Atom.mk "parent" ["X", "Y"], Atom.mk "parent" ["Y", "Z"]]] ∧
    prove demoProgram (Atom.mk "grandparent" ["john", "emma"]) 50 =
      (true,
       ["Goal: grandparent(john, emma)",
        "  Matched RULE: grandparent(john, emma) :- parent(john, Y), parent(Y, emma)",
        "Goal: parent(john, Y)",
        "  Matched FACT: parent(john, mary)",
        "Goal: parent(mary, emma)",
        "  Matched FACT: parent(mary, emma)"]) := by decide

/-- C2: the search always terminates under the depth bound (its result is
independent of the fuel artifact once the fuel covers `max_depth`); on the
program holding only the self-referential rule `p(X) :- p(X).` and no fact,
`prove` returns `proved = false` for every `max_depth`; and as soon as the
depth counter (incremented once per goal expansion) exceeds `max_depth`,
the branch is abandoned with a depth-limit trace line and reported as a
local failure (`none`), which triggers backtracking in the clause loop. -/
theorem c2_depth_bound_self_loop :
    (∀ md : Nat, prove selfProgram selfQuery md =
      (false, ["Goal: p(c)", "  Fail: p(c)"])) ∧
    (∀ (program : List Rule) (md fuel : Nat) (goals : List Atom) (s : Subst)
        (depth : Nat) (tr : List String), md < depth →
        dfs program md (fuel + 1) goals s depth tr =
          (none, tr ++ [depthLimitLine goals s])) ∧
    (∀ (program : List Rule) (md n m depth : Nat) (goals : List Atom) (s : Subst)
        (tr : List String), depth ≤ md + 1 →
        md + 2 ≤ depth + n → md + 2 ≤ depth + m →
        dfs program md n goals s depth tr = dfs program md m goals s depth tr) := by
  refine ⟨?_, ?_, fun program md => dfs_fuel_irrelevant program md⟩
  · intro md
    have h1 : prove selfProgram selfQuery md =
        ((dfs selfProgram md (md + 2) [selfQuery] [] 0 []).1.isSome,
         (dfs selfProgram md (md + 2) [selfQuery] [] 0 []).2) := rfl
    have h2 : dfs selfProgram md (md + 2) [selfQuery] [] 0 [] =
        firstSuccess
          (dfs selfProgram md (md + 1) [selfAtomX] substXc 1
            ["Goal: p(c)", "  Matched RULE: p(c) :- p(c)"])
          (fun _ => (none, ["Goal: p(c)", "  Fail: p(c)"])) := rfl
    have h3 := dfs_self_fails md (md + 1) 1
      ["Goal: p(c)", "  Matched RULE: p(c) :- p(c)"] (by omega) (by omega)
    rw [h1, h2, firstSuccess_of_none _ _ (by rw [h3])]
    rfl
  · intro program md fuel goals s depth tr h
    simp only [dfs, if_pos h]

/-- C2 witness: the self-loop program fails at `max_depth = 3`; a branch at
depth `4 > 3` is abandoned with the depth-limit line; and the result with
the minimal fuel equals the result with fuel `99`. -/
theorem c2_depth_bound_self_loop_witness :
    prove selfProgram selfQuery 3 = (false, ["Goal: p(c)", "  Fail: p(c)"]) ∧
    dfs selfProgram 3 5 [selfAtomX] substXc 4 [] =
      (none, [depthLimitLine [selfAtomX] substXc]) ∧
    dfs selfProgram 3 5 [selfQuery] [] 0 [] = dfs selfProgram 3 99 [selfQuery] [] 0 [] :=
  ⟨c2_depth_bound_self_loop.1 3,
   c2_depth_bound_self_loop.2.1 selfProgram 3 4 [selfAtomX] substXc 4 [] (by decide),
   c2_depth_bound_self_loop.2.2 selfProgram 3 5 99 0 [selfQuery] [] []
     (by decide) (by decide) (by decide)⟩

/-- C3: backtracking leaks no bindings.  When a candidate clause unifies
but every continuation of its recursive proof attempt fails, the clause
loop continues with the remaining clauses under the substitution exactly as
it was before the clause was tried; and on any well-formed substitution,
`unify_terms` / `unify_atoms` never mutate their input (they are pure) and
on success return a substitution that extends — never overwrites or
removes — every binding of the input (and is again well-formed). -/
theorem c3_backtracking_no_leaks :
    (∀ (next : List Atom → Subst → List String → Option Subst × List String)
        (goal : Atom) (rest : List Atom) (s : Subst) (tr : List String)
        (r : Rule) (rs : List Rule) (s2 : Subst),
        unify_atoms r.head goal s = some s2 →
        (∀ goals2 tr2, (next goals2 s2 tr2).1 = none) →
        tryRules next goal rest s tr (r :: rs) = tryRules next goal rest s tr rs) ∧
    (∀ (t1 t2 : Term) (s s' : Subst), Wf s → unify_terms t1 t2 s = some s' →
        (∀ k v, slookup s k = some v → slookup s' k = some v) ∧ Wf s') ∧
    (∀ (a1 a2 : Atom) (s s' : Subst), Wf s → unify_atoms a1 a2 s = some s' →
        (∀ k v, slookup s k = some v → slookup s' k = some v) ∧ Wf s') := by
  refine ⟨?_, unify_terms_wf_extends, unify_atoms_wf_extends⟩
  intro next goal rest s tr r rs s2 hu hfail
  cases hb : r.body with
  | nil =>
    simp only [tryRules, hu, hb]
    rw [firstSuccess_of_none _ _ (hfail _ _)]
  | cons b bs =>
    simp only [tryRules, hu, hb]
    rw [firstSuccess_of_none _ _ (hfail _ _)]

/-- C3 witness: a concrete failing candidate is skipped without leaking its
binding, and the binding `X ↦ c` added by a unification over the empty
substitution extends it and stays well-formed. -/
theorem c3_backtracking_no_leaks_witness :
    tryRules (fun _ _ tr2 => (none, tr2)) (Atom.mk "p" ["c"]) [] [] []
        [Rule.mk (Atom.mk "p" ["X"]) [Atom.mk "q" ["X"]],
         Rule.mk (Atom.mk "p" ["c"]) []] =
      tryRules (fun _ _ tr2 => (none, tr2)) (Atom.mk "p" ["c"]) [] [] []
        [Rule.mk (Atom.mk "p" ["c"]) []] ∧
    ((∀ k v, slookup [] k = some v → slookup [("X", "c")] k = some v) ∧ Wf [("X", "c")]) :=
  ⟨c3_backtracking_no_leaks.1 (fun _ _ tr2 => (none, tr2)) (Atom.mk "p" ["c"]) [] [] []
     (Rule.mk (Atom.mk "p" ["X"]) [Atom.mk "q" ["X"]]) [Rule.mk (Atom.mk "p" ["c"]) []]
     [("X", "c")] (by decide) (fun _ _ => rfl),
   c3_backtracking_no_leaks.2.1 "X" "c" [] [("X", "c")] (fun _ _ => rfl) (by decide)⟩

/-- C5: unification is symmetric: `unify_terms a b s` succeeds iff
`unify_terms b a s` succeeds, and (on substitutions whose chains resolve,
i.e. all substitutions the engine ever builds) the two results resolve
every term to identical values, differing at most in which side of the
unified pair became the representative — a term resolves differently only
when both sides resolve it to the unified value of `a` and `b`. -/
theorem c5_unification_symmetric (a b : Term) (s : Subst) :
    ((unify_terms a b s).isSome = (unify_terms b a s).isSome) ∧
    (Wf s → ∀ s1 s2, unify_terms a b s = some s1 → unify_terms b a s = some s2 →
      ∀ t, apply_subst_term t s1 = apply_subst_term t s2 ∨
        (apply_subst_term t s1 = apply_subst_term a s1 ∧
         apply_subst_term t s2 = apply_subst_term a s2)) := by
  by_cases hab : apply_subst_term a s = apply_subst_term b s
  · have hf : unify_terms a b s = some s := by simp [unify_terms, hab]
    have hg : unify_terms b a s = some s := by simp [unify_terms, hab.symm]
    refine ⟨by rw [hf, hg], ?_⟩
    intro _ s1 s2 h1 h2
    rw [hf] at h1
    rw [hg] at h2
    obtain rfl : s = s1 := by injection h1
    obtain rfl : s = s2 := by injection h2
    exact fun t => Or.inl rfl
  · have hba : apply_subst_term b s ≠ apply_subst_term a s := fun hc => hab hc.symm
    by_cases hva : is_var (apply_subst_term a s) = true
    · by_cases hvb : is_var (apply_subst_term b s) = true
      · have hf : unify_terms a b s =
            some ((apply_subst_term a s, apply_subst_term b s) :: s) := by
          simp [unify_terms, hab, hva]
        have hg : unify_terms b a s =
            some ((apply_subst_term b s, apply_subst_term a s) :: s) := by
          simp [unify_terms, hba, hvb]
        refine ⟨by simp [hf, hg], ?_⟩
        intro hwf s1 s2 h1 h2
        rw [hf] at h1
        rw [hg] at h2
        obtain rfl : (apply_subst_term a s, apply_subst_term b s) :: s = s1 := by
          injection h1
        obtain rfl : (apply_subst_term b s, apply_subst_term a s) :: s = s2 := by
          injection h2
        have hxnone : slookup s (apply_subst_term a s) = none := hwf a hva
        have hynone : slookup s (apply_subst_term b s) = none := hwf b hvb
        have e1 : ∀ u, apply_subst_term u
              ((apply_subst_term a s, apply_subst_term b s) :: s) =
            if apply_subst_term u s = apply_subst_term a s then apply_subst_term b s
            else apply_subst_term u s :=
          fun u => apply_subst_term_extend s _ _ hwf hxnone hva (hwf b) hba u
        have e2 : ∀ u, apply_subst_term u
              ((apply_subst_term b s, apply_subst_term a s) :: s) =
            if apply_subst_term u s = apply_subst_term b s then apply_subst_term a s
            else apply_subst_term u s :=
          fun u => apply_subst_term_extend s _ _ hwf hynone hvb (hwf a) hab u
        intro t
        rw [e1 t, e2 t, e1 a, e2 a]
        by_cases hx : apply_subst_term t s = apply_subst_term a s
        · rw [if_pos hx,
            if_neg (show apply_subst_term t s ≠ apply_subst_term b s from
              fun hc => hab (hx.symm.trans hc)),
            if_pos rfl, if_neg hab]
          exact Or.inr ⟨rfl, hx⟩
        · by_cases hy : apply_subst_term t s = apply_subst_term b s
          · rw [if_neg hx, if_pos hy, if_pos rfl, if_neg hab]
            exact Or.inr ⟨hy, rfl⟩
          · rw [if_neg hx, if_neg hy]
            exact Or.inl rfl
      · have hf : unify_terms a b s =
            some ((apply_subst_term a s, apply_subst_term b s) :: s) := by
          simp [unify_terms, hab, hva]
        have hg : unify_terms b a s =
            some ((apply_subst_term a s, apply_subst_term b s) :: s) := by
          simp [unify_terms, hba, hvb, hva]
        refine ⟨by rw [hf, hg], ?_⟩
        intro _ s1 s2 h1 h2
        rw [hf] at h1
        rw [hg] at h2
        obtain rfl : (apply_subst_term a s, apply_subst_term b s) :: s = s1 := by
          injection h1
        obtain rfl : (apply_subst_term a s, apply_subst_term b s) :: s = s2 := by
          injection h2
        exact fun t => Or.inl rfl
    · by_cases hvb : is_var (apply_subst_term b s) = true
      · have hf : unify_terms a b s =
            some ((apply_subst_term b s, apply_subst_term a s) :: s) := by
          simp [unify_terms, hab, hva, hvb]
        have hg : unify_terms b a s =
            some ((apply_subst_term b s, apply_subst_term a s) :: s) := by
          simp [unify_terms, hba, hvb]
        refine ⟨by rw [hf, hg], ?_⟩
        intro _ s1 s2 h1 h2
        rw [hf] at h1
        rw [hg] at h2
        obtain rfl : (apply_subst_term b s, apply_subst_term a s) :: s = s1 := by
          injection h1
        obtain rfl : (apply_subst_term b s, apply_subst_term a s) :: s = s2 := by
          injection h2
        exact fun t => Or.inl rfl
      · have hf : unify_terms a b s = none := by simp [unify_terms, hab, hva, hvb]
        have hg : unify_terms b a s = none := by simp [unify_terms, hba, hvb, hva]
        refine ⟨by rw [hf, hg], ?_⟩
        intro _ s1 s2 h1 _
        rw [hf] at h1
        exact absurd h1 (by simp)

/-- C5 witness: unifying the variables `X` and `Y` over the empty
substitution in both orders; the term `Z` resolves identically, and the
pair's own sides land in the allowed disjunct. -/
theorem c5_unification_symmetric_witness :
    apply_subst_term "Z" [("X", "Y")] = apply_subst_term "Z" [("Y", "X")] ∨
      (apply_subst_term "Z" [("X", "Y")] = apply_subst_term "X" [("X", "Y")] ∧
       apply_subst_term "Z" [("Y", "X")] = apply_subst_term "X" [("Y", "X")]) :=
  (c5_unification_symmetric "X" "Y" []).2 (fun _ _ => rfl) [("X", "Y")] [("Y", "X")]
    (by decide) (by decide) "Z"

/-- C6: candidate clauses are tried strictly in program order: a clause
whose head does not unify is skipped, and as soon as one candidate's
recursive attempt succeeds the success (with its trace) is propagated
without trying further clauses; consequently two unifiable facts inserted
in either order both prove the query `p(Q)`, but the trace names whichever
fact comes first in the program. -/
theorem c6_program_order_first_success :
    (∀ (next : List Atom → Subst → List String → Option Subst × List String)
        (goal : Atom) (rest : List Atom) (s : Subst) (tr : List String)
        (r : Rule) (rs : List Rule),
        unify_atoms r.head goal s = none →
        tryRules next goal rest s tr (r :: rs) = tryRules next goal rest s tr rs) ∧
    (∀ (next : List Atom → Subst → List String → Option Subst × List String)
        (goal : Atom) (rest : List Atom) (s : Subst) (tr : List String)
        (r : Rule) (rs : List Rule) (s2 res : Subst) (tr2 : List String),
        unify_atoms r.head goal s = some s2 → r.body = [] →
        next rest s2 (tr ++ ["Goal: " ++ atomStr goal,
          "  Matched FACT: " ++ atomStr (apply_subst_atom r.head s2)]) = (some res, tr2) →
        tryRules next goal rest s tr (r :: rs) = (some res, tr2)) ∧
    (∀ (next : List Atom → Subst → List String → Option Subst × List String)
        (goal : Atom) (rest : List Atom) (s : Subst) (tr : List String)
        (r : Rule) (rs : List Rule) (s2 res : Subst) (tr2 : List String),
        unify_atoms r.head goal s = some s2 → r.body ≠ [] →
        next (r.body ++ rest) s2 (tr ++ ["Goal: " ++ atomStr goal,
          "  Matched RULE: " ++ atomStr (apply_subst_atom r.head s2) ++ " :- " ++
            joinComma ((r.body.map (fun x => apply_subst_atom x s2)).map atomStr)]) =
          (some res, tr2) →
        tryRules next goal rest s tr (r :: rs) = (some res, tr2)) ∧
    (prove [Rule.mk (Atom.mk "p" ["a"]) [], Rule.mk (Atom.mk "p" ["b"]) []]
        (Atom.mk "p" ["Q"]) 50 = (true, ["Goal: p(Q)", "  Matched FACT: p(a)"]) ∧
     prove [Rule.mk (Atom.mk "p" ["b"]) [], Rule.mk (Atom.mk "p" ["a"]) []]
        (Atom.mk "p" ["Q"]) 50 = (true, ["Goal: p(Q)", "  Matched FACT: p(b)"])) := by
  refine ⟨?_, ?_, ?_, by decide⟩
  · intro next goal rest s tr r rs hu
    simp only [tryRules, hu]
  · intro next goal rest s tr r rs s2 res tr2 hu hb hnext
    simp only [tryRules, hu, hb]
    exact firstSuccess_of_some _ _ _ _ hnext
  · intro next goal rest s tr r rs s2 res tr2 hu hbne hnext
    cases hb : r.body with
    | nil => exact absurd hb hbne
    | cons b bs =>
      rw [hb] at hnext
      simp only [tryRules, hu, hb]
      exact firstSuccess_of_some _ _ _ _ hnext

/-- C6 witness: the second fact is reached only after the first is skipped,
and a succeeding fact candidate propagates its result unchanged. -/
theorem c6_program_order_first_success_witness :
    tryRules (fun _ s2 tr2 => (some s2, tr2)) (Atom.mk "p" ["c"]) [] [] []
        [Rule.mk (Atom.mk "q" ["d"]) [], Rule.mk (Atom.mk "p" ["c"]) []] =
      tryRules (fun _ s2 tr2 => (some s2, tr2)) (Atom.mk "p" ["c"]) [] [] []
        [Rule.mk (Atom.mk "p" ["c"]) []] ∧
    tryRules (fun _ s2 tr2 => (some s2, tr2)) (Atom.mk "p" ["c"]) [] [] []
        [Rule.mk (Atom.mk "p" ["c"]) []] =
      (some [], ["Goal: p(c)", "  Matched FACT: p(c)"]) :=
  ⟨c6_program_order_first_success.1 (fun _ s2 tr2 => (some s2, tr2)) (Atom.mk "p" ["c"])
     [] [] [] (Rule.mk (Atom.mk "q" ["d"]) []) [Rule.mk (Atom.mk "p" ["c"]) []]
     (by decide),
   c6_program_order_first_success.2.1 (fun _ s2 tr2 => (some s2, tr2)) (Atom.mk "p" ["c"])
     [] [] [] (Rule.mk (Atom.mk "p" ["c"]) []) [] []
     [] ["Goal: p(c)", "  Matched FACT: p(c)"] (by decide) rfl (by decide)⟩

/-- C7: when no program clause unifies with the resolved goal, or every
candidate that unified has only failing continuations, the clause loop
reports failure with the trace extended by the `Goal:` and `  Fail:` lines
for the resolved goal; concretely, on the demo program the query
`grandparent(emma, john)` yields `proved = false` with a trace ending in
the `Fail:` line for that unresolvable goal. -/
theorem c7_failure_trace :
    (∀ (next : List Atom → Subst → List String → Option Subst × List String)
        (goal : Atom) (rest : List Atom) (s : Subst) (tr : List String)
        (rules : List Rule),
        (∀ r ∈ rules, ∀ s2, unify_atoms r.head goal s = some s2 →
          ∀ goals2 tr2, (next goals2 s2 tr2).1 = none) →
        tryRules next goal rest s tr rules =
          (none, tr ++ ["Goal: " ++ atomStr goal, "  Fail: " ++ atomStr goal])) ∧
    prove demoProgram (Atom.mk "grandparent" ["emma", "john"]) 50 =
      (false, ["Goal: grandparent(emma, john)", "  Fail: grandparent(emma, john)"]) := by
  refine ⟨?_, by decide⟩
  intro next goal rest s tr rules h
  induction rules with
  | nil => rfl
  | cons r rs ih =>
    have hrest : ∀ r' ∈ rs, ∀ s2, unify_atoms r'.head goal s = some s2 →
        ∀ goals2 tr2, (next goals2 s2 tr2).1 = none :=
      fun r' hr' => h r' (List.mem_cons_of_mem r hr')
    cases hu : unify_atoms r.head goal s with
    | none =>
      simp only [tryRules, hu]
      exact ih hrest
    | some s2 =>
      have hfail := h r (List.mem_cons_self r rs) s2 hu
      cases hb : r.body with
      | nil =>
        simp only [tryRules, hu, hb]
        rw [firstSuccess_of_none _ _ (hfail _ _)]
        exact ih hrest
      | cons b bs =>
        simp only [tryRules, hu, hb]
        rw [firstSuccess_of_none _ _ (hfail _ _)]
        exact ih hrest

/-- C7 witness: a goal whose predicate matches no clause head fails with
the `Goal:`/`  Fail:` lines appended to the (empty) trace. -/
theorem c7_failure_trace_witness :
    tryRules (fun _ _ tr2 => (none, tr2)) (Atom.mk "p" ["c"]) [] [] []
        [Rule.mk (Atom.mk "q" ["d"]) []] =
      (none, ["Goal: p(c)", "  Fail: p(c)"]) :=
  c7_failure_trace.1 (fun _ _ tr2 => (none, tr2)) (Atom.mk "p" ["c"]) [] [] []
    [Rule.mk (Atom.mk "q" ["d"]) []] (fun _ _ _ _ _ _ => rfl)

/-- C8 counterexample: the depth check precedes the empty-goal check, so a
recursive call with an empty goal list reached at `depth = max_depth + 1`
fails with the depth-limit line instead of succeeding; with `max_depth = 0`
the fact `p.` matching the query `p` produces exactly such a call, and the
whole proof fails even though the goal list was empty. -/
theorem c8_counterexample :
    dfs [Rule.mk (Atom.mk "p" []) []] 0 1 [] [] 1 ["Goal: p", "  Matched FACT: p"] =
      (none, ["Goal: p", "  Matched FACT: p", "Depth limit reached at goals: []"]) ∧
    prove [Rule.mk (Atom.mk "p" []) []] (Atom.mk "p" []) 0 =
      (false, ["Goal: p", "  Fail: p"]) := by decide

/-- C8 amended: an empty outstanding-goal list is immediate success — the
search returns the current substitution with the trace unchanged — for
every substitution and every depth that has not exceeded `max_depth`; the
depth check runs before the empty-goal check, so depths beyond the bound
fail instead. -/
theorem c8_empty_goals_success (program : List Rule) (md fuel depth : Nat)
    (s : Subst) (tr : List String) (hd : depth ≤ md) :
    dfs program md (fuel + 1) [] s depth tr = (some s, tr) := by
  simp only [dfs, if_neg (Nat.not_lt.mpr hd)]

/-- C8 amended witness: a concrete empty-goal call below the bound returns
its substitution unchanged. -/
theorem c8_empty_goals_success_witness :
    dfs [] 5 1 [] [("X", "c")] 2 [] = (some [("X", "c")], []) :=
  c8_empty_goals_success [] 5 0 2 [("X", "c")] [] (by decide)

/-- C9 counterexample: proving the ground fact `p(c)` present verbatim in
the program succeeds, but the resulting trace has two lines — the goal
line and the matched-fact line — not one. -/
theorem c9_counterexample :
    prove [Rule.mk (Atom.mk "p" ["c"]) []] (Atom.mk "p" ["c"]) 50 =
      (true, ["Goal: p(c)", "  Matched FACT: p(c)"]) ∧
    (prove [Rule.mk (Atom.mk "p" ["c"]) []] (Atom.mk "p" ["c"]) 50).2.length = 2 := by
  decide

/-- C9 amended: if a program contains, anywhere and at least once, a fact
identical to a ground query atom, `prove` (at the source default
`max_depth = 50`) succeeds on that query regardless of the program's size
or clause order; and when that fact is the first clause whose head unifies
with the query, the trace is the two-line trace naming it: the goal line
followed by the matched-fact line. -/
theorem c9_fact_always_proves (program : List Rule) (f : Atom)
    (hg : isGround f = true) (hmem : Rule.mk f [] ∈ program) :
    (prove program f 50).1 = true ∧
    (∀ pre post, program = pre ++ Rule.mk f [] :: post →
      (∀ r ∈ pre, unify_atoms r.head f [] = none) →
      prove program f 50 =
        (true, ["Goal: " ++ atomStr f, "  Matched FACT: " ++ atomStr f])) := by
  have h2 : dfs program 50 52 [f] [] 0 [] =
      tryRules (fun g s2 t2 => dfs program 50 51 g s2 1 t2)
        (apply_subst_atom f []) [] [] [] program := rfl
  constructor
  · have h1 : (prove program f 50).1 = (dfs program 50 52 [f] [] 0 []).1.isSome := rfl
    rw [h1, h2, apply_subst_atom_nil]
    exact tryRules_fact_isSome (fun g s2 t2 => dfs program 50 51 g s2 1 t2)
      f [] [] [] (fun tr2 => rfl) program hmem
  · intro pre post hsplit hpre
    have h1 : prove program f 50 =
        ((dfs program 50 52 [f] [] 0 []).1.isSome,
         (dfs program 50 52 [f] [] 0 []).2) := rfl
    rw [h1, h2, apply_subst_atom_nil, hsplit]
    rw [tryRules_skip_all _ f [] [] [] pre (Rule.mk f [] :: post) hpre]
    have hu : unify_atoms (Rule.mk f []).head f ([] : Subst) = some [] :=
      unify_atoms_refl f []
    have hh : (Rule.mk f []).head = f := rfl
    have hb : (Rule.mk f []).body = ([] : List Atom) := rfl
    simp only [tryRules, hu, hh, hb, apply_subst_atom_nil]
    have hatt : dfs (pre ++ Rule.mk f [] :: post) 50 51 [] [] 1
        ([] ++ ["Goal: " ++ atomStr f, "  Matched FACT: " ++ atomStr f]) =
      (some [], [] ++ ["Goal: " ++ atomStr f, "  Matched FACT: " ++ atomStr f]) := rfl
    rw [firstSuccess_of_some _ _ _ _ hatt]
    rfl

/-- C9 amended witness: the fact `p(c)` placed after a non-unifying fact
still yields success with the two-line trace naming it. -/
theorem c9_fact_always_proves_witness :
    prove [Rule.mk (Atom.mk "q" ["d"]) [], Rule.mk (Atom.mk "p" ["c"]) []]
        (Atom.mk "p" ["c"]) 50 =
      (true, ["Goal: p(c)", "  Matched FACT: p(c)"]) :=
  (c9_fact_always_proves
      [Rule.mk (Atom.mk "q" ["d"]) [], Rule.mk (Atom.mk "p" ["c"]) []]
      (Atom.mk "p" ["c"]) (by decide) (by decide)).2
    [Rule.mk (Atom.mk "q" ["d"]) []] [] rfl (by decide)

/-- C10: `parse_program` is a total function: every input yields a clause
list (at most one clause per line) and never an error; a missing closing
parenthesis still yields an atom with the arguments scanned so far (the
line `p(a` parses to the atom `p(a)`), and an empty line-fragment yields an
atom with empty predicate name rather than an error. -/
theorem c10_parse_program_total :
    (∀ text, (parse_program text).length ≤ (splitOnChar '\n' text.data).length) ∧
    _parse_atom "p(a" = Atom.mk "p" ["a"] ∧
    _parse_atom "" = Atom.mk "" [] ∧
    parse_program "p(a" = [Rule.mk (Atom.mk "p" ["a"]) []] ∧
    parse_program ":- q(a)." = [Rule.mk (Atom.mk "" []) [Atom.mk "q" ["a"]]] := by
  refine ⟨fun text => List.length_filterMap_le _ _, by decide, by decide, by decide,
    by decide⟩

/-- C4 counterexample: parsing never fails — no ParseError exists anywhere
in the engine.  A rule line with an unterminated argument list (unbalanced
parentheses) and a line whose head atom text is empty after trimming both
parse to clauses, instead of a structured failure being reported to the
caller. -/
theorem c4_counterexample :
    parse_program "p(a" = [Rule.mk (Atom.mk "p" ["a"]) []] ∧
    parse_program ":- q." = [Rule.mk (Atom.mk "" []) [Atom.mk "q" []]] := by decide

/-- C4 amended: for malformed program or query text the parser does not
fail: an unterminated argument list yields the atom with the arguments
scanned so far, and an atom text empty after trimming yields an atom with
empty predicate name; a caller can therefore never observe a parse failure
distinct from the query being unprovable. -/
theorem c4_lenient_parsing :
    _parse_atom "p(a, X" = Atom.mk "p" ["a", "X"] ∧
    _parse_atom "   " = Atom.mk "" [] ∧
    parse_program "grandparent(X, Z" =
      [Rule.mk (Atom.mk "grandparent" ["X", "Z"]) []] ∧
    parse_program "p(a :- q(" = [Rule.mk (Atom.mk "p" ["a"]) [Atom.mk "q" []]] := by
  decide

